import Mathlib

/-!
# Verification of the iavl-rs authenticated AVL tree

Shallow embedding of the `iavl-rs` repository core (src/hash.rs, src/node.rs,
src/proof.rs, src/tree.rs) and proofs of the specification claims.

Byte strings are `List Nat` (each entry a byte value). `u32` heights are `Nat`
(they only grow by `+1` from `0`, so no overflow modelling is needed);
`i32` balance factors are `Int` (tree heights stay far below `2^31`).
Code that can panic (`expect`, `assert!`) is embedded with `Option`,
`none` meaning the panic was reached.
-/

set_option maxRecDepth 1000000

set_option maxHeartbeats 2000000

namespace Iavl

/-! ## SHA-256 (the `sha2` crate used by src/hash.rs)

A complete executable SHA-256. The streaming `update` interface of the crate
is modelled byte by byte: bytes accumulate in a buffer that is compressed each
time it reaches 64 bytes, exactly as an incremental SHA-256 implementation
absorbs its input stream. -/

/-- Truncate to a 32-bit word. -/
def w32 (n : Nat) : Nat := n % 4294967296

/-- 32-bit right rotation. -/
def rotr (n x : Nat) : Nat := w32 ((x <<< (32 - n)) ||| (x >>> n))

def bsig0 (x : Nat) : Nat := rotr 2 x ^^^ rotr 13 x ^^^ rotr 22 x
def bsig1 (x : Nat) : Nat := rotr 6 x ^^^ rotr 11 x ^^^ rotr 25 x
def ssig0 (x : Nat) : Nat := rotr 7 x ^^^ rotr 18 x ^^^ (x >>> 3)
def ssig1 (x : Nat) : Nat := rotr 17 x ^^^ rotr 19 x ^^^ (x >>> 10)

/-- The 64 SHA-256 round constants (decimal). -/
def shaK : List Nat :=
[1116352408, 1899447441, 3049323471, 3921009573, 961987163, 1508970993,
 2453635748, 2870763221, 3624381080, 310598401, 607225278, 1426881987,
 1925078388, 2162078206, 2614888103, 3248222580, 3835390401, 4022224774,
 264347078, 604807628, 770255983, 1249150122, 1555081692, 1996064986,
 2554220882, 2821834349, 2952996808, 3210313671, 3336571891, 3584528711,
 113926993, 338241895, 666307205, 773529912, 1294757372, 1396182291,
 1695183700, 1986661051, 2177026350, 2456956037, 2730485921, 2820302411,
 3259730800, 3345764771, 3516065817, 3600352804, 4094571909, 275423344,
 430227734, 506948616, 659060556, 883997877, 958139571, 1322822218,
 1537002063, 1747873779, 1955562222, 2024104815, 2227730452, 2361852424,
 2428436474, 2756734187, 3204031479, 3329325298]

/-- The initial SHA-256 state (decimal). -/
def shaH0 : List Nat :=
[1779033703, 3144134277, 1013904242, 2773480762,
 1359893119, 2600822924, 528734635, 1541459225]

/-- Big-endian 32-bit words from a byte list (complete 4-byte groups). -/
def wordsOfBytes : List Nat → List Nat
  | b0 :: b1 :: b2 :: b3 :: rest =>
      (b0 * 16777216 + b1 * 65536 + b2 * 256 + b3) :: wordsOfBytes rest
  | _ => []

/-- Message-schedule extension; `acc` holds the words produced so far, newest first. -/
def schedAux : Nat → List Nat → List Nat
  | 0, acc => acc
  | n + 1, acc =>
      let wv := w32 (ssig1 (acc.getD 1 0) + acc.getD 6 0 + ssig0 (acc.getD 14 0) + acc.getD 15 0)
      schedAux n (wv :: acc)

/-- The 64-word message schedule of one 64-byte block. -/
def schedule (block : List Nat) : List Nat :=
  (schedAux 48 (wordsOfBytes block).reverse).reverse

/-- One SHA-256 round on the 8-word working state. -/
def roundStep (st : List Nat) (kw : Nat × Nat) : List Nat :=
  match st with
  | [a, b, c, d, e, f, g, h] =>
      let t1 := w32 (h + bsig1 e + (g ^^^ (e &&& (f ^^^ g))) + kw.1 + kw.2)
      let t2 := w32 (bsig0 a + ((a &&& (b ||| c)) ||| (b &&& c)))
      [w32 (t1 + t2), a, b, c, w32 (d + t1), e, f, g]
  | other => other

/-- SHA-256 compression of one 64-byte block into the 8-word chaining state. -/
def compress (hs : List Nat) (block : List Nat) : List Nat :=
  let st := (List.zip shaK (schedule block)).foldl roundStep hs
  List.zipWith (fun a b => w32 (a + b)) hs st

/-- An incremental SHA-256 state: chaining words, buffered bytes (< 64), total length. -/
structure Sha256 where
  hs : List Nat
  buf : List Nat
  len : Nat
  deriving DecidableEq, Repr

/-- `Sha256::new()`. -/
def shaInit : Sha256 := ⟨shaH0, [], 0⟩

/-- Absorb one byte of the input stream. -/
def shaUpdate1 (s : Sha256) (b : Nat) : Sha256 :=
  let buf := s.buf ++ [b]
  if buf.length == 64 then ⟨compress s.hs buf, [], s.len + 1⟩
  else ⟨s.hs, buf, s.len + 1⟩

/-- `Sha256::update`: absorb a byte string into the stream. -/
def shaUpdate (s : Sha256) (bs : List Nat) : Sha256 :=
  bs.foldl shaUpdate1 s

/-- 8-byte big-endian encoding of the bit length, as in SHA-256 padding. -/
def beBytes8 (n : Nat) : List Nat :=
  [n >>> 56 % 256, n >>> 48 % 256, n >>> 40 % 256, n >>> 32 % 256,
   n >>> 24 % 256, n >>> 16 % 256, n >>> 8 % 256, n % 256]

/-- Big-endian bytes of a word list (the final digest serialization). -/
def wordBytes : List Nat → List Nat
  | [] => []
  | w :: rest => (w >>> 24 % 256) :: (w >>> 16 % 256) :: (w >>> 8 % 256) :: (w % 256) :: wordBytes rest

/-- `Sha256::finalize`: pad (0x80, zeros, 64-bit big-endian bit length) and digest. -/
def shaFinalize (s : Sha256) : List Nat :=
  let zeros := (64 - (s.len + 9) % 64) % 64
  let s' := shaUpdate s (128 :: (List.replicate zeros 0 ++ beBytes8 (s.len * 8)))
  wordBytes s'.hs

/-! ## src/hash.rs -/

/-- `hash_value` (src/hash.rs): SHA-256 of one byte string. -/
def hash_value (bytes : List Nat) : List Nat :=
  shaFinalize (shaUpdate shaInit bytes)

/-- `hash_array` (src/hash.rs): successive `update` calls on a single SHA-256
state, one per array element, then finalize. -/
def hash_array (bytes_array : List (List Nat)) : List Nat :=
  shaFinalize (bytes_array.foldl shaUpdate shaInit)

/-! ## src/node.rs -/

/-- `NodeRef = Option<Box<AvlNode>>` together with `AvlNode` itself:
`nil` is `None`, `node key value hash merkle_hash height left right` is
`Some(AvlNode { .. })`. -/
inductive NodeRef : Type where
  | nil : NodeRef
  | node (key value hash merkle_hash : List Nat) (height : Nat) (left right : NodeRef) : NodeRef
  deriving DecidableEq, Repr

/-- `AvlNode::new` wrapped by `as_node_ref`: a fresh leaf. -/
def as_node_ref (key value : List Nat) : NodeRef :=
  .node key value (hash_array [key, value]) (hash_value (hash_array [key, value])) 0 .nil .nil

/-- The stored height of an optional node: `left_height` / `right_height`. -/
def height_opt : NodeRef → Option Nat
  | .nil => none
  | .node _ _ _ _ ht _ _ => some ht

/-- `left_hash`/`right_hash` with `unwrap_or(&empty)` as used in proofs:
the subtree merkle hash, or the empty byte string when absent. -/
def merkle_or_empty : NodeRef → List Nat
  | .nil => []
  | .node _ _ _ m _ _ _ => m

/-- The optional merkle hash as a list of hash-array arguments, as
`update_hashes` pushes it: nothing when the child is absent. -/
def merkle_list : NodeRef → List (List Nat)
  | .nil => []
  | .node _ _ _ m _ _ _ => [m]

/-- `AvlNode::update_hashes`: recompute this node's `merkle_hash` from the
children's merkle hashes and its own content hash. -/
def update_hashes : NodeRef → NodeRef
  | .nil => .nil
  | .node k v h _ ht l r => .node k v h (hash_array (merkle_list l ++ h :: merkle_list r)) ht l r

/-- `AvlNode::update_height`, mirroring the source's match on (right, left). -/
def update_height : NodeRef → NodeRef
  | .nil => .nil
  | .node k v h m _ l r =>
      let ht :=
        match r with
        | .nil =>
          match l with
          | .nil => 0
          | .node _ _ _ _ lh _ _ => lh + 1
        | .node _ _ _ _ rh _ _ =>
          match l with
          | .nil => rh + 1
          | .node _ _ _ _ lh _ _ => Nat.max lh rh + 1
      .node k v h m ht l r

/-- `AvlNode::update`: `update_hashes` then `update_height`. -/
def update (t : NodeRef) : NodeRef := update_height (update_hashes t)

/-- `AvlNode::balance_factor` (the source's four-case match on the optional
child heights). On `nil` (never the case in the source, where it is a method
of a node) it returns 0. -/
def balance_factor : NodeRef → Int
  | .nil => 0
  | .node _ _ _ _ _ l r =>
    match height_opt l, height_opt r with
    | none, none => 0
    | none, some h => -(h : Int)
    | some h, none => (h : Int)
    | some hl, some hr => (hl : Int) - (hr : Int)

/-! ## src/tree.rs -/

/-- Lexicographic byte-slice comparison, `<[u8] as Ord>::cmp`. -/
def cmpBytes : List Nat → List Nat → Ordering
  | [], [] => .eq
  | [], _ :: _ => .lt
  | _ :: _, [] => .gt
  | a :: as1, b :: bs1 => if a < b then .lt else if b < a then .gt else cmpBytes as1 bs1

/-- `Tree::rotate_right`. `none` models the `expect` panics on a missing root
or missing left child. -/
def rotate_right : NodeRef → Option NodeRef
  | .nil => none
  | .node k v h m ht l r =>
    match l with
    | .nil => none
    | .node lk lv lh lm lht ll lr =>
      let node2 := update (.node k v h m ht lr r)
      some (update (.node lk lv lh lm lht ll node2))

/-- `Tree::rotate_left`. `none` models the `expect` panics on a missing root
or missing right child. -/
def rotate_left : NodeRef → Option NodeRef
  | .nil => none
  | .node k v h m ht l r =>
    match r with
    | .nil => none
    | .node rk rv rh rm rht rl rr =>
      let node2 := update (.node k v h m ht l rl)
      some (update (.node rk rv rh rm rht node2 rr))

/-- `Tree::balance_node`. `none` models any of the `expect` panics inside it
or inside the rotations it performs. -/
def balance_node : NodeRef → Option NodeRef
  | .nil => none
  | .node k v h m ht l r =>
    if 2 ≤ balance_factor (.node k v h m ht l r) then
      match l with
      | .nil => none
      | .node lk lv lh lm lht ll lr =>
        if balance_factor (.node lk lv lh lm lht ll lr) < 1 then
          match rotate_left (.node lk lv lh lm lht ll lr) with
          | none => none
          | some l2 => rotate_right (.node k v h m ht l2 r)
        else rotate_right (.node k v h m ht l r)
    else if balance_factor (.node k v h m ht l r) ≤ -2 then
      match r with
      | .nil => none
      | .node rk rv rh rm rht rl rr =>
        if -1 < balance_factor (.node rk rv rh rm rht rl rr) then
          match rotate_right (.node rk rv rh rm rht rl rr) with
          | none => none
          | some r2 => rotate_left (.node k v h m ht l r2)
        else rotate_left (.node k v h m ht l r)
    else some (.node k v h m ht l r)

/-- `Tree::insert_recursive` (together with `Tree::insert`'s collection of the
old value): returns the new subtree and the previous value of the key, or
`none` if a panic was reached while rebalancing. On an equal key it calls
`update_value` (refreshing `hash` and `value`) and returns at once, without
`update` or `balance_node` at that node. -/
def insert_recursive : NodeRef → List Nat → List Nat → Option (NodeRef × Option (List Nat))
  | .nil, key, value => some (as_node_ref key value, none)
  | .node k v h m ht l r, key, value =>
    match cmpBytes k key with
    | .gt =>
      match insert_recursive l key value with
      | none => none
      | some (l2, old) =>
        match balance_node (update (.node k v h m ht l2 r)) with
        | none => none
        | some t2 => some (t2, old)
    | .lt =>
      match insert_recursive r key value with
      | none => none
      | some (r2, old) =>
        match balance_node (update (.node k v h m ht l r2)) with
        | none => none
        | some t2 => some (t2, old)
    | .eq => some (.node k value (hash_array [k, value]) m ht l r, some v)

/-- `Tree::get`. -/
def get : NodeRef → List Nat → Option (List Nat)
  | .nil, _ => none
  | .node k v _ _ _ l r, key =>
    match cmpBytes k key with
    | .gt => get l key
    | .lt => get r key
    | .eq => some v

/-- `Tree::root_hash`: the root's merkle hash, if any. -/
def root_hash : NodeRef → Option (List Nat)
  | .nil => none
  | .node _ _ _ m _ _ _ => some m

/-- One step of a proof path (src/proof.rs `ProofPathNode`). -/
structure PathNode where
  prefixBytes : List Nat
  suffixBytes : List Nat
  deriving DecidableEq, Repr

/-- An existence proof (src/proof.rs `Proof`). -/
structure Proof where
  key : List Nat
  value : List Nat
  path : List PathNode
  deriving DecidableEq, Repr

/-- `Proof::calc_exsistence_root`: replay the leaf hash through the path. -/
def calc_exsistence_root (p : Proof) : List Nat :=
  p.path.foldl (fun hh n => hash_array [n.prefixBytes, hh, n.suffixBytes])
    (hash_array [p.key, p.value])

/-- `Tree::get_proof_recursive`. -/
def get_proof_recursive (key : List Nat) : NodeRef → Option Proof
  | .nil => none
  | .node k v h _ _ l r =>
    match cmpBytes k key with
    | .gt =>
      match get_proof_recursive key l with
      | none => none
      | some p => some { p with path := p.path ++ [⟨[], h ++ merkle_or_empty r⟩] }
    | .lt =>
      match get_proof_recursive key r with
      | none => none
      | some p => some { p with path := p.path ++ [⟨merkle_or_empty l ++ h, []⟩] }
    | .eq => some { key := k, value := v, path := [⟨merkle_or_empty l, merkle_or_empty r⟩] }

/-- `Tree::get_proof`. -/
def get_proof (t : NodeRef) (key : List Nat) : Option Proof :=
  get_proof_recursive key t

/-- The two error values of `AvlTreeError` (src/error.rs). -/
inductive AvlTreeError : Type where
  | RootHashNotFound : AvlTreeError
  | ValueNonExistence : AvlTreeError
  deriving DecidableEq, Repr

deriving instance DecidableEq for Except

/-- `Tree::verify_existence`. The two leading `assert!`s are modelled by
`none` (panic); otherwise the result of the `Result` is returned. -/
def verify_existence (t : NodeRef) (key value : List Nat) (p : Proof) :
    Option (Except AvlTreeError Unit) :=
  if p.key = key then
    if p.value = value then
      match root_hash t with
      | none => some (Except.error AvlTreeError.RootHashNotFound)
      | some root =>
        if calc_exsistence_root p = root then some (Except.ok ())
        else some (Except.error AvlTreeError.ValueNonExistence)
    else none
  else none

/-- Run a sequence of `insert` calls starting from the given tree,
propagating a rebalancing panic as `none`. -/
def build_go : NodeRef → List (List Nat × List Nat) → Option NodeRef
  | t, [] => some t
  | t, (k, v) :: rest =>
    match insert_recursive t k v with
    | none => none
    | some (t2, _) => build_go t2 rest

/-- A tree built from `Tree::new()` by a sequence of `insert` calls. -/
def buildTree (ps : List (List Nat × List Nat)) : Option NodeRef :=
  build_go .nil ps

/-! ## Specification invariants (from spec.md §3)

These predicates are the spec's statements of the invariants, decidable so
that concrete trees can be checked by evaluation. -/

/-- The in-order list of `(key, value)` pairs of a tree. -/
def pairsList : NodeRef → List (List Nat × List Nat)
  | .nil => []
  | .node k v _ _ _ l r => pairsList l ++ (k, v) :: pairsList r

/-- The keys of a tree, in order. -/
def keysList (t : NodeRef) : List (List Nat) := (pairsList t).map Prod.fst

/-- Lexicographic strict order on byte strings, as a Boolean. -/
def ltb (a b : List Nat) : Bool :=
  match cmpBytes a b with
  | .lt => true
  | _ => false

theorem ltb_iff (a b : List Nat) : ltb a b = true ↔ cmpBytes a b = .lt := by
  unfold ltb
  cases cmpBytes a b <;> simp

/-- An optional strict lower bound on a key. -/
def okLo : Option (List Nat) → List Nat → Bool
  | none, _ => true
  | some lo, k => ltb lo k

/-- An optional strict upper bound on a key. -/
def okHi : Option (List Nat) → List Nat → Bool
  | none, _ => true
  | some hi, k => ltb k hi

/-- The BST invariant with optional strict bounds: every key in the left
subtree is below the node key, every key in the right subtree above it. -/
def bstBnd : Option (List Nat) → Option (List Nat) → NodeRef → Bool
  | _, _, .nil => true
  | lo, hi, .node k _ _ _ _ l r =>
    okLo lo k && okHi hi k && bstBnd lo (some k) l && bstBnd (some k) hi r

/-- The height of an optional node with an absent child counted as −1
(the spec's convention). -/
def hNeg : NodeRef → Int
  | .nil => -1
  | .node _ _ _ _ ht _ _ => (ht : Int)

/-- Height consistency (spec invariant 3): every stored height equals
`1 + max(height(left), height(right))`, absent child −1. -/
def hgtOk : NodeRef → Bool
  | .nil => true
  | .node _ _ _ _ ht l r =>
    (decide ((ht : Int) = 1 + max (hNeg l) (hNeg r))) && hgtOk l && hgtOk r

/-- The AVL invariant (spec invariant 2): sibling heights differ by at most 1,
an absent child counted as height −1. -/
def avlOk : NodeRef → Bool
  | .nil => true
  | .node _ _ _ _ _ l r =>
    (decide ((hNeg l - hNeg r).natAbs ≤ 1)) && avlOk l && avlOk r

/-- Content-hash consistency (spec invariant 4). -/
def hashOk : NodeRef → Bool
  | .nil => true
  | .node k v h _ _ l r => (h == hash_array [k, v]) && hashOk l && hashOk r

/-- Subtree-hash consistency (spec invariant 5). -/
def merkleOk : NodeRef → Bool
  | .nil => true
  | .node _ _ h m _ l r =>
    (m == hash_array (merkle_list l ++ h :: merkle_list r)) && merkleOk l && merkleOk r

/-! ## Byte-comparison lemmas -/

theorem cmpBytes_eq_iff : ∀ a b : List Nat, cmpBytes a b = .eq ↔ a = b := by
  intro a
  induction a with
  | nil => intro b; cases b <;> simp [cmpBytes]
  | cons x xs ih =>
    intro b
    cases b with
    | nil => simp [cmpBytes]
    | cons y ys =>
      simp only [cmpBytes]
      split_ifs with h1 h2
      · simp; omega
      · simp; omega
      · have hxy : x = y := by omega
        subst hxy
        simp [ih]

theorem cmpBytes_self (a : List Nat) : cmpBytes a a = .eq :=
  (cmpBytes_eq_iff a a).mpr rfl

theorem cmpBytes_gt_iff : ∀ a b : List Nat, cmpBytes a b = .gt ↔ cmpBytes b a = .lt := by
  intro a
  induction a with
  | nil => intro b; cases b <;> simp [cmpBytes]
  | cons x xs ih =>
    intro b
    cases b with
    | nil => simp [cmpBytes]
    | cons y ys =>
      simp only [cmpBytes]
      split_ifs with h1 h2 h3 <;>
        first
          | (exact ih ys)
          | omega
          | simp

theorem cmpBytes_lt_trans :
    ∀ a b c : List Nat, cmpBytes a b = .lt → cmpBytes b c = .lt → cmpBytes a c = .lt := by
  intro a
  induction a with
  | nil =>
    intro b c hab hbc
    cases b with
    | nil => exact hbc
    | cons y ys =>
      cases c with
      | nil => simp [cmpBytes] at hbc
      | cons z zs => simp [cmpBytes]
  | cons x xs ih =>
    intro b c hab hbc
    cases b with
    | nil => simp [cmpBytes] at hab
    | cons y ys =>
      cases c with
      | nil => simp [cmpBytes] at hbc
      | cons z zs =>
        simp only [cmpBytes] at hab hbc ⊢
        split_ifs at hab with h1 h2 <;> split_ifs at hbc with h3 h4 <;> split_ifs with h5 h6
        all_goals first | rfl | omega | (exact ih ys zs hab hbc)

theorem ltb_trans {a b c : List Nat} (h1 : ltb a b = true) (h2 : ltb b c = true) :
    ltb a c = true := by
  rw [ltb_iff] at h1 h2 ⊢
  exact cmpBytes_lt_trans a b c h1 h2

theorem ltb_irrefl (a : List Nat) : ltb a a = false := by
  unfold ltb
  rw [cmpBytes_self]

theorem ltb_ne {a b : List Nat} (h : ltb a b = true) : a ≠ b := by
  intro hab
  subst hab
  rw [ltb_irrefl] at h
  exact Bool.false_ne_true h

theorem okLo_trans {lo : Option (List Nat)} {a b : List Nat}
    (h1 : okLo lo a = true) (h2 : ltb a b = true) : okLo lo b = true := by
  cases lo with
  | none => rfl
  | some lo => exact ltb_trans h1 h2

theorem okHi_trans {hi : Option (List Nat)} {a b : List Nat}
    (h1 : ltb a b = true) (h2 : okHi hi b = true) : okHi hi a = true := by
  cases hi with
  | none => rfl
  | some hi => exact ltb_trans h1 h2

/-! ## Streaming-hash lemmas -/

theorem shaUpdate_append (s : Sha256) (a b : List Nat) :
    shaUpdate s (a ++ b) = shaUpdate (shaUpdate s a) b := by
  simp [shaUpdate, List.foldl_append]

theorem foldl_shaUpdate (xs : List (List Nat)) :
    ∀ s : Sha256, xs.foldl shaUpdate s = shaUpdate s xs.flatten := by
  induction xs with
  | nil => intro s; rfl
  | cons x xs ih =>
    intro s
    rw [List.foldl_cons, ih, List.flatten_cons, shaUpdate_append]

theorem hash_array_eq_join (l : List (List Nat)) : hash_array l = hash_value l.flatten := by
  unfold hash_array hash_value
  rw [foldl_shaUpdate]

/-! ## Structural lemmas about `update` and the invariants -/

/-- The height value computed by `update_height` as a function of the children. -/
def hfun (l r : NodeRef) : Nat :=
  match r with
  | .nil =>
    match l with
    | .nil => 0
    | .node _ _ _ _ lh _ _ => lh + 1
  | .node _ _ _ _ rh _ _ =>
    match l with
    | .nil => rh + 1
    | .node _ _ _ _ lh _ _ => Nat.max lh rh + 1

theorem update_node_eq (k v h m : List Nat) (ht : Nat) (l r : NodeRef) :
    update (.node k v h m ht l r) =
      .node k v h (hash_array (merkle_list l ++ h :: merkle_list r)) (hfun l r) l r := by
  cases l <;> cases r <;> rfl

theorem hfun_honest (l r : NodeRef) : (hfun l r : Int) = 1 + max (hNeg l) (hNeg r) := by
  cases l <;> cases r <;>
    simp [hfun, hNeg, Nat.cast_max] <;>
    rw [max_def] <;> split_ifs <;> omega

@[simp] theorem pairsList_node (k v h m : List Nat) (ht : Nat) (l r : NodeRef) :
    pairsList (.node k v h m ht l r) = pairsList l ++ (k, v) :: pairsList r := rfl

@[simp] theorem bstBnd_node (lo hi : Option (List Nat)) (k v h m : List Nat) (ht : Nat)
    (l r : NodeRef) :
    bstBnd lo hi (.node k v h m ht l r) =
      (okLo lo k && okHi hi k && bstBnd lo (some k) l && bstBnd (some k) hi r) := rfl

@[simp] theorem hgtOk_node (k v h m : List Nat) (ht : Nat) (l r : NodeRef) :
    hgtOk (.node k v h m ht l r) =
      ((decide ((ht : Int) = 1 + max (hNeg l) (hNeg r))) && hgtOk l && hgtOk r) := rfl

@[simp] theorem hashOk_node (k v h m : List Nat) (ht : Nat) (l r : NodeRef) :
    hashOk (.node k v h m ht l r) = ((h == hash_array [k, v]) && hashOk l && hashOk r) := rfl

@[simp] theorem merkleOk_node (k v h m : List Nat) (ht : Nat) (l r : NodeRef) :
    merkleOk (.node k v h m ht l r) =
      ((m == hash_array (merkle_list l ++ h :: merkle_list r)) && merkleOk l && merkleOk r) := rfl

theorem hgtOk_update {l r : NodeRef} (hl : hgtOk l = true) (hr : hgtOk r = true)
    (k v h m : List Nat) (ht : Nat) :
    hgtOk (update (.node k v h m ht l r)) = true := by
  rw [update_node_eq]
  simp [hl, hr, hfun_honest]

theorem merkleOk_update {l r : NodeRef} (hl : merkleOk l = true) (hr : merkleOk r = true)
    (k v h m : List Nat) (ht : Nat) :
    merkleOk (update (.node k v h m ht l r)) = true := by
  rw [update_node_eq]
  simp [hl, hr]

theorem hashOk_update {l r : NodeRef} (hl : hashOk l = true) (hr : hashOk r = true)
    {k v h : List Nat} (hh : h = hash_array [k, v]) (m : List Nat) (ht : Nat) :
    hashOk (update (.node k v h m ht l r)) = true := by
  rw [update_node_eq]
  simp [hl, hr, hh]

theorem bstBnd_update (lo hi : Option (List Nat)) (k v h m : List Nat) (ht : Nat)
    (l r : NodeRef) :
    bstBnd lo hi (update (.node k v h m ht l r)) = bstBnd lo hi (.node k v h m ht l r) := by
  rw [update_node_eq]
  rfl

theorem pairsList_update (k v h m : List Nat) (ht : Nat) (l r : NodeRef) :
    pairsList (update (.node k v h m ht l r)) = pairsList l ++ (k, v) :: pairsList r := by
  rw [update_node_eq]
  rfl

theorem update_irrel (k v h m m2 : List Nat) (ht ht2 : Nat) (l r : NodeRef) :
    update (.node k v h m ht l r) = update (.node k v h m2 ht2 l r) := by
  rw [update_node_eq, update_node_eq]

/-! ## Rotation and balance lemmas -/

/-- The balance factor as a function of the two children only. -/
def bfn (l r : NodeRef) : Int :=
  match height_opt l, height_opt r with
  | none, none => 0
  | none, some h => -(h : Int)
  | some h, none => (h : Int)
  | some hl, some hr => (hl : Int) - (hr : Int)

theorem balance_factor_node (k v h m : List Nat) (ht : Nat) (l r : NodeRef) :
    balance_factor (.node k v h m ht l r) = bfn l r := rfl

theorem bfn_nil_left_nonpos (r : NodeRef) : bfn .nil r ≤ 0 := by
  cases r <;> simp [bfn, height_opt]

theorem bfn_nil_right_nonneg (l : NodeRef) : 0 ≤ bfn l .nil := by
  cases l <;> simp [bfn, height_opt]

theorem rotate_right_node (k v h m : List Nat) (ht : Nat)
    (lk lv lh lm : List Nat) (lht : Nat) (ll lr r : NodeRef) :
    rotate_right (.node k v h m ht (.node lk lv lh lm lht ll lr) r) =
      some (update (.node lk lv lh lm lht ll (update (.node k v h m ht lr r)))) := rfl

theorem rotate_left_node (k v h m : List Nat) (ht : Nat)
    (rk rv rh rm : List Nat) (rht : Nat) (l rl rr : NodeRef) :
    rotate_left (.node k v h m ht l (.node rk rv rh rm rht rl rr)) =
      some (update (.node rk rv rh rm rht (update (.node k v h m ht l rl)) rr)) := rfl

/-- The bundle of post-state properties tracked through rebalancing: the
in-order pairs, the BST bound invariant, height consistency, content-hash
consistency and subtree-hash consistency, all stated for a subtree `t2` that
replaces a node with key `k`, value `v`, content hash `h` and children `l`,
`r`. -/
def PostProps (k v h : List Nat) (l r t2 : NodeRef) : Prop :=
  pairsList t2 = pairsList l ++ (k, v) :: pairsList r ∧
  (∀ lo hi, okLo lo k = true → okHi hi k = true → bstBnd lo (some k) l = true →
    bstBnd (some k) hi r = true → bstBnd lo hi t2 = true) ∧
  (hgtOk l = true → hgtOk r = true → hgtOk t2 = true) ∧
  (hashOk l = true → hashOk r = true → h = hash_array [k, v] → hashOk t2 = true) ∧
  (merkleOk l = true → merkleOk r = true → merkleOk t2 = true)

theorem postProps_update (k v h m : List Nat) (ht : Nat) (l r : NodeRef) :
    PostProps k v h l r (update (.node k v h m ht l r)) := by
  refine ⟨pairsList_update .., ?_, ?_, ?_, ?_⟩
  · intro lo hi hlo hhi hl hr
    rw [bstBnd_update]
    simp [hlo, hhi, hl, hr]
  · intro hl hr
    exact hgtOk_update hl hr ..
  · intro hl hr hh
    exact hashOk_update hl hr hh ..
  · intro hl hr
    exact merkleOk_update hl hr ..

theorem postProps_rotR (k v h m2 : List Nat) (ht2 : Nat)
    (lk lv lh lm : List Nat) (lht : Nat) (ll lr r : NodeRef) :
    PostProps k v h (.node lk lv lh lm lht ll lr) r
      (update (.node lk lv lh lm lht ll (update (.node k v h m2 ht2 lr r)))) := by
  refine ⟨?_, ?_, ?_, ?_, ?_⟩
  · simp [pairsList_update, List.append_assoc]
  · intro lo hi hlo hhi hl hr
    simp only [bstBnd_node, Bool.and_eq_true] at hl
    obtain ⟨⟨⟨h1, h2⟩, h3⟩, h4⟩ := hl
    simp only [okHi] at h2
    rw [bstBnd_update]
    simp only [bstBnd_node, Bool.and_eq_true]
    refine ⟨⟨⟨h1, okHi_trans h2 hhi⟩, h3⟩, ?_⟩
    rw [bstBnd_update]
    simp only [bstBnd_node, Bool.and_eq_true]
    exact ⟨⟨⟨h2, hhi⟩, h4⟩, hr⟩
  · intro hl hr
    simp only [hgtOk_node, Bool.and_eq_true] at hl
    obtain ⟨⟨_, h3⟩, h4⟩ := hl
    exact hgtOk_update h3 (hgtOk_update h4 hr ..) ..
  · intro hl hr hh
    simp only [hashOk_node, Bool.and_eq_true, beq_iff_eq] at hl
    obtain ⟨⟨h2, h3⟩, h4⟩ := hl
    exact hashOk_update h3 (hashOk_update h4 hr hh ..) h2 ..
  · intro hl hr
    simp only [merkleOk_node, Bool.and_eq_true] at hl
    obtain ⟨⟨_, h3⟩, h4⟩ := hl
    exact merkleOk_update h3 (merkleOk_update h4 hr ..) ..

theorem postProps_rotL (k v h m2 : List Nat) (ht2 : Nat)
    (rk rv rh rm : List Nat) (rht : Nat) (l rl rr : NodeRef) :
    PostProps k v h l (.node rk rv rh rm rht rl rr)
      (update (.node rk rv rh rm rht (update (.node k v h m2 ht2 l rl)) rr)) := by
  refine ⟨?_, ?_, ?_, ?_, ?_⟩
  · simp [pairsList_update, List.append_assoc]
  · intro lo hi hlo hhi hl hr
    simp only [bstBnd_node, Bool.and_eq_true] at hr
    obtain ⟨⟨⟨h1, h2⟩, h3⟩, h4⟩ := hr
    simp only [okLo] at h1
    rw [bstBnd_update]
    simp only [bstBnd_node, Bool.and_eq_true]
    refine ⟨⟨⟨okLo_trans hlo h1, h2⟩, ?_⟩, h4⟩
    rw [bstBnd_update]
    simp only [bstBnd_node, Bool.and_eq_true]
    exact ⟨⟨⟨hlo, h1⟩, hl⟩, h3⟩
  · intro hl hr
    simp only [hgtOk_node, Bool.and_eq_true] at hr
    obtain ⟨⟨_, h3⟩, h4⟩ := hr
    exact hgtOk_update (hgtOk_update hl h3 ..) h4 ..
  · intro hl hr hh
    simp only [hashOk_node, Bool.and_eq_true, beq_iff_eq] at hr
    obtain ⟨⟨h2, h3⟩, h4⟩ := hr
    exact hashOk_update (hashOk_update hl h3 hh ..) h4 h2 ..
  · intro hl hr
    simp only [merkleOk_node, Bool.and_eq_true] at hr
    obtain ⟨⟨_, h3⟩, h4⟩ := hr
    exact merkleOk_update (merkleOk_update hl h3 ..) h4 ..

theorem postProps_rotLR (k v h m3 m4 m5 : List Nat) (ht3 ht4 ht5 : Nat)
    (lk lv lh lm : List Nat) (lht : Nat) (lrk lrv lrh lrm : List Nat) (lrht : Nat)
    (ll lrl lrr r : NodeRef) :
    PostProps k v h (.node lk lv lh lm lht ll (.node lrk lrv lrh lrm lrht lrl lrr)) r
      (update (.node lrk lrv lrh m3 ht3 (update (.node lk lv lh m4 ht4 ll lrl))
        (update (.node k v h m5 ht5 lrr r)))) := by
  refine ⟨?_, ?_, ?_, ?_, ?_⟩
  · simp [pairsList_update, List.append_assoc]
  · intro lo hi hlo hhi hl hr
    simp only [bstBnd_node, Bool.and_eq_true] at hl
    obtain ⟨⟨⟨h1, h2⟩, h3⟩, ⟨⟨⟨h5, h6⟩, h7⟩, h8⟩⟩ := hl
    simp only [okHi] at h2 h6
    simp only [okLo] at h5
    rw [bstBnd_update]
    simp only [bstBnd_node, Bool.and_eq_true]
    refine ⟨⟨⟨okLo_trans h1 h5, okHi_trans h6 hhi⟩, ?_⟩, ?_⟩
    · rw [bstBnd_update]
      simp only [bstBnd_node, Bool.and_eq_true]
      exact ⟨⟨⟨h1, h5⟩, h3⟩, h7⟩
    · rw [bstBnd_update]
      simp only [bstBnd_node, Bool.and_eq_true]
      exact ⟨⟨⟨h6, hhi⟩, h8⟩, hr⟩
  · intro hl hr
    simp only [hgtOk_node, Bool.and_eq_true] at hl
    obtain ⟨⟨_, h3⟩, h4⟩ := hl
    obtain ⟨⟨_, h7⟩, h8⟩ := h4
    exact hgtOk_update (hgtOk_update h3 h7 ..) (hgtOk_update h8 hr ..) ..
  · intro hl hr hh
    simp only [hashOk_node, Bool.and_eq_true, beq_iff_eq] at hl
    obtain ⟨⟨h2, h3⟩, h4⟩ := hl
    obtain ⟨⟨h6, h7⟩, h8⟩ := h4
    exact hashOk_update (hashOk_update h3 h7 h2 ..) (hashOk_update h8 hr hh ..) h6 ..
  · intro hl hr
    simp only [merkleOk_node, Bool.and_eq_true] at hl
    obtain ⟨⟨_, h3⟩, h4⟩ := hl
    obtain ⟨⟨_, h7⟩, h8⟩ := h4
    exact merkleOk_update (merkleOk_update h3 h7 ..) (merkleOk_update h8 hr ..) ..

theorem postProps_rotRL (k v h m3 m4 m5 : List Nat) (ht3 ht4 ht5 : Nat)
    (rk rv rh rm : List Nat) (rht : Nat) (rlk rlv rlh rlm : List Nat) (rlht : Nat)
    (l rll rlr rr : NodeRef) :
    PostProps k v h l (.node rk rv rh rm rht (.node rlk rlv rlh rlm rlht rll rlr) rr)
      (update (.node rlk rlv rlh m3 ht3 (update (.node k v h m4 ht4 l rll))
        (update (.node rk rv rh m5 ht5 rlr rr)))) := by
  refine ⟨?_, ?_, ?_, ?_, ?_⟩
  · simp [pairsList_update, List.append_assoc]
  · intro lo hi hlo hhi hl hr
    simp only [bstBnd_node, Bool.and_eq_true] at hr
    obtain ⟨⟨⟨h1, h2⟩, ⟨⟨⟨h5, h6⟩, h7⟩, h8⟩⟩, h4⟩ := hr
    simp only [okLo] at h5
    simp only [okHi] at h6
    rw [bstBnd_update]
    simp only [bstBnd_node, Bool.and_eq_true]
    refine ⟨⟨⟨okLo_trans hlo h5, okHi_trans h6 h2⟩, ?_⟩, ?_⟩
    · rw [bstBnd_update]
      simp only [bstBnd_node, Bool.and_eq_true]
      exact ⟨⟨⟨hlo, h5⟩, hl⟩, h7⟩
    · rw [bstBnd_update]
      simp only [bstBnd_node, Bool.and_eq_true]
      exact ⟨⟨⟨h6, h2⟩, h8⟩, h4⟩
  · intro hl hr
    simp only [hgtOk_node, Bool.and_eq_true] at hr
    obtain ⟨⟨_, h3⟩, h4⟩ := hr
    obtain ⟨⟨_, h7⟩, h8⟩ := h3
    exact hgtOk_update (hgtOk_update hl h7 ..) (hgtOk_update h8 h4 ..) ..
  · intro hl hr hh
    simp only [hashOk_node, Bool.and_eq_true, beq_iff_eq] at hr
    obtain ⟨⟨h2, h3⟩, h4⟩ := hr
    obtain ⟨⟨h6, h7⟩, h8⟩ := h3
    exact hashOk_update (hashOk_update hl h7 hh ..) (hashOk_update h8 h4 h2 ..) h6 ..
  · intro hl hr
    simp only [merkleOk_node, Bool.and_eq_true] at hr
    obtain ⟨⟨_, h3⟩, h4⟩ := hr
    obtain ⟨⟨_, h7⟩, h8⟩ := h3
    exact merkleOk_update (merkleOk_update hl h7 ..) (merkleOk_update h8 h4 ..) ..

theorem rotate_right_update_left (k v h m : List Nat) (ht : Nat)
    (a b c d : List Nat) (e : Nat) (x y r : NodeRef) :
    rotate_right (.node k v h m ht (update (.node a b c d e x y)) r) =
      some (update (.node a b c (hash_array (merkle_list x ++ c :: merkle_list y)) (hfun x y) x
        (update (.node k v h m ht y r)))) := by
  rw [update_node_eq, rotate_right_node]

theorem rotate_left_update_right (k v h m : List Nat) (ht : Nat)
    (a b c d : List Nat) (e : Nat) (x y l : NodeRef) :
    rotate_left (.node k v h m ht l (update (.node a b c d e x y))) =
      some (update (.node a b c (hash_array (merkle_list x ++ c :: merkle_list y)) (hfun x y)
        (update (.node k v h m ht l x)) y)) := by
  rw [update_node_eq, rotate_left_node]

theorem bfn_le_left_height (lk lv lh lm : List Nat) (lht : Nat) (ll lr r : NodeRef) :
    bfn (.node lk lv lh lm lht ll lr) r ≤ (lht : Int) := by
  cases r <;> simp [bfn, height_opt]

theorem bfn_ge_neg_right_height (rk rv rh rm : List Nat) (rht : Nat) (rl rr l : NodeRef) :
    -(rht : Int) ≤ bfn l (.node rk rv rh rm rht rl rr) := by
  cases l <;> simp [bfn, height_opt]

/-- Any successful run of `update` followed by `balance_node` yields a subtree
enjoying all the tracked post-state properties. -/
theorem balance_update_props (k v h m : List Nat) (ht : Nat) (l r : NodeRef) (t2 : NodeRef)
    (hs : balance_node (update (.node k v h m ht l r)) = some t2) :
    PostProps k v h l r t2 := by
  rw [update_node_eq] at hs
  simp only [balance_node, balance_factor_node] at hs
  by_cases hbf : 2 ≤ bfn l r
  · rw [if_pos hbf] at hs
    cases l with
    | nil =>
      exfalso
      have := bfn_nil_left_nonpos r
      omega
    | node lk lv lh lm lht ll lr =>
      dsimp only at hs
      by_cases hbl : bfn ll lr < 1
      · rw [if_pos hbl] at hs
        cases lr with
        | nil => simp [rotate_left] at hs
        | node lrk lrv lrh lrm lrht lrl lrr =>
          rw [rotate_left_node] at hs
          simp only [rotate_right_update_left, Option.some.injEq] at hs
          subst hs
          exact postProps_rotLR ..
      · rw [if_neg hbl] at hs
        rw [rotate_right_node] at hs
        injection hs with h2
        subst h2
        exact postProps_rotR ..
  · rw [if_neg hbf] at hs
    by_cases hbf2 : bfn l r ≤ -2
    · rw [if_pos hbf2] at hs
      cases r with
      | nil =>
        exfalso
        have := bfn_nil_right_nonneg l
        omega
      | node rk rv rh rm rht rl rr =>
        dsimp only at hs
        by_cases hbr : -1 < bfn rl rr
        · rw [if_pos hbr] at hs
          cases rl with
          | nil => simp [rotate_right] at hs
          | node rlk rlv rlh rlm rlht rll rlr =>
            rw [rotate_right_node] at hs
            simp only [rotate_left_update_right, Option.some.injEq] at hs
            subst hs
            exact postProps_rotRL ..
        · rw [if_neg hbr] at hs
          rw [rotate_left_node] at hs
          injection hs with h2
          subst h2
          exact postProps_rotL ..
    · rw [if_neg hbf2] at hs
      injection hs with h2
      subst h2
      have hp := postProps_update k v h m ht l r
      rwa [update_node_eq] at hp

/-- Under height consistency of the children, `update` followed by
`balance_node` never reaches a panic. -/
theorem balance_update_some (k v h m : List Nat) (ht : Nat) (l r : NodeRef)
    (hl : hgtOk l = true) (hr : hgtOk r = true) :
    ∃ t2, balance_node (update (.node k v h m ht l r)) = some t2 := by
  rw [update_node_eq]
  simp only [balance_node, balance_factor_node]
  by_cases hbf : 2 ≤ bfn l r
  · rw [if_pos hbf]
    cases l with
    | nil =>
      exfalso
      have := bfn_nil_left_nonpos r
      omega
    | node lk lv lh lm lht ll lr =>
      simp only [hgtOk_node, Bool.and_eq_true, decide_eq_true_eq] at hl
      obtain ⟨⟨hlht, _⟩, _⟩ := hl
      dsimp only
      by_cases hbl : bfn ll lr < 1
      · rw [if_pos hbl]
        cases lr with
        | nil =>
          exfalso
          have hle := bfn_le_left_height lk lv lh lm lht ll .nil r
          cases ll with
          | nil =>
            simp [hNeg] at hlht
            omega
          | node a b c d llht x y =>
            simp [hNeg] at hlht
            simp [bfn, height_opt] at hbl
            omega
        | node lrk lrv lrh lrm lrht lrl lrr =>
          rw [rotate_left_node]
          simp only [rotate_right_update_left]
          exact ⟨_, rfl⟩
      · rw [if_neg hbl]
        rw [rotate_right_node]
        exact ⟨_, rfl⟩
  · rw [if_neg hbf]
    by_cases hbf2 : bfn l r ≤ -2
    · rw [if_pos hbf2]
      cases r with
      | nil =>
        exfalso
        have := bfn_nil_right_nonneg l
        omega
      | node rk rv rh rm rht rl rr =>
        simp only [hgtOk_node, Bool.and_eq_true, decide_eq_true_eq] at hr
        obtain ⟨⟨hrht, _⟩, _⟩ := hr
        dsimp only
        by_cases hbr : -1 < bfn rl rr
        · rw [if_pos hbr]
          cases rl with
          | nil =>
            exfalso
            have hge := bfn_ge_neg_right_height rk rv rh rm rht .nil rr l
            cases rr with
            | nil =>
              simp [hNeg] at hrht
              omega
            | node a b c d rrht x y =>
              simp [hNeg] at hrht
              simp [bfn, height_opt] at hbr
              omega
          | node rlk rlv rlh rlm rlht rll rlr =>
            rw [rotate_right_node]
            simp only [rotate_left_update_right]
            exact ⟨_, rfl⟩
        · rw [if_neg hbr]
          rw [rotate_left_node]
          exact ⟨_, rfl⟩
    · rw [if_neg hbf2]
      exact ⟨_, rfl⟩

/-! ## The insert induction -/

@[simp] theorem keysList_node (k v h m : List Nat) (ht : Nat) (l r : NodeRef) :
    keysList (.node k v h m ht l r) = keysList l ++ k :: keysList r := by
  simp [keysList]

theorem key_mem_of_pair_mem {q w : List Nat} {t : NodeRef}
    (h : (q, w) ∈ pairsList t) : q ∈ keysList t := by
  simp only [keysList, List.mem_map]
  exact ⟨(q, w), h, rfl⟩

theorem hash_array_single (bs : List Nat) : hash_array [bs] = hash_value bs := rfl

/-- The properties of one `insert` call tracked through the recursion:
membership of the new pair, preservation of the other pairs, the looked-up
pairs of a fresh key, and preservation of the BST, height, content-hash and
(for a fresh key) subtree-hash invariants. -/
def InsProps (key value : List Nat) (t t2 : NodeRef) : Prop :=
  (key, value) ∈ pairsList t2 ∧
  (∀ q w, q ≠ key → ((q, w) ∈ pairsList t2 ↔ (q, w) ∈ pairsList t)) ∧
  (key ∉ keysList t → ∀ w, ((key, w) ∈ pairsList t2 ↔ w = value)) ∧
  (∀ lo hi, bstBnd lo hi t = true → okLo lo key = true → okHi hi key = true →
    bstBnd lo hi t2 = true) ∧
  (hgtOk t = true → hgtOk t2 = true) ∧
  (hashOk t = true → hashOk t2 = true) ∧
  (key ∉ keysList t → merkleOk t = true → merkleOk t2 = true)

theorem insert_props (key value : List Nat) :
    ∀ (t t2 : NodeRef) (old : Option (List Nat)),
      insert_recursive t key value = some (t2, old) → InsProps key value t t2 := by
  intro t
  induction t with
  | nil =>
    intro t2 old hins
    simp only [insert_recursive, Option.some.injEq, Prod.mk.injEq] at hins
    obtain ⟨rfl, rfl⟩ := hins
    unfold InsProps as_node_ref
    refine ⟨by simp, ?_, ?_, ?_, by simp [hNeg], by simp, ?_⟩
    · intro q w hq
      simp [pairsList, hq]
    · intro _ w
      simp [pairsList]
    · intro lo hi _ hlo hhi
      simp [bstBnd, hlo, hhi]
    · intro _ _
      simp [merkleOk, merkle_list, hash_array_single]
  | node k v h m ht l r ihl ihr =>
    intro t2 old hins
    simp only [insert_recursive] at hins
    cases hc : cmpBytes k key with
    | gt =>
      rw [hc] at hins
      dsimp only at hins
      cases hi1 : insert_recursive l key value with
      | none =>
        rw [hi1] at hins
        simp at hins
      | some p =>
        obtain ⟨l2, old2⟩ := p
        rw [hi1] at hins
        dsimp only at hins
        cases hb : balance_node (update (.node k v h m ht l2 r)) with
        | none =>
          rw [hb] at hins
          simp at hins
        | some t3 =>
          rw [hb] at hins
          simp only [Option.some.injEq, Prod.mk.injEq] at hins
          obtain ⟨rfl, rfl⟩ := hins
          obtain ⟨hpairs, hbst, hhgt, hhash, hmerkle⟩ := balance_update_props k v h m ht l2 r _ hb
          obtain ⟨ih1, ih2, ih3, ih4, ih5, ih6, ih7⟩ := ihl l2 old2 hi1
          have hklt : ltb key k = true := by
            rw [ltb_iff]
            exact (cmpBytes_gt_iff k key).mp hc
          have hkne : key ≠ k := ltb_ne hklt
          refine ⟨?_, ?_, ?_, ?_, ?_, ?_, ?_⟩
          · rw [hpairs]
            simp [ih1]
          · intro q w hq
            rw [hpairs]
            simp [List.mem_append, ih2 q w hq]
          · intro hfresh w
            simp only [keysList_node, List.mem_append, List.mem_cons] at hfresh
            push_neg at hfresh
            obtain ⟨hf1, hf2, hf3⟩ := hfresh
            rw [hpairs]
            simp only [List.mem_append, List.mem_cons]
            constructor
            · rintro (hm | hm | hm)
              · exact (ih3 hf1 w).mp hm
              · exact absurd (congrArg Prod.fst hm) (by simpa using hf2)
              · exact absurd (key_mem_of_pair_mem hm) hf3
            · intro hw
              exact Or.inl ((ih3 hf1 w).mpr hw)
          · intro lo hi hb0 hlo hhi
            simp only [bstBnd_node, Bool.and_eq_true] at hb0
            obtain ⟨⟨⟨hb1, hb2⟩, hb3⟩, hb4⟩ := hb0
            exact hbst lo hi hb1 hb2 (ih4 lo (some k) hb3 hlo hklt) hb4
          · intro hh0
            simp only [hgtOk_node, Bool.and_eq_true] at hh0
            obtain ⟨⟨_, hh1⟩, hh2⟩ := hh0
            exact hhgt (ih5 hh1) hh2
          · intro hh0
            simp only [hashOk_node, Bool.and_eq_true, beq_iff_eq] at hh0
            obtain ⟨⟨hh1, hh2⟩, hh3⟩ := hh0
            exact hhash (ih6 hh2) hh3 hh1
          · intro hfresh hm0
            simp only [keysList_node, List.mem_append, List.mem_cons] at hfresh
            push_neg at hfresh
            simp only [merkleOk_node, Bool.and_eq_true] at hm0
            obtain ⟨⟨_, hm1⟩, hm2⟩ := hm0
            exact hmerkle (ih7 hfresh.1 hm1) hm2
    | lt =>
      rw [hc] at hins
      dsimp only at hins
      cases hi1 : insert_recursive r key value with
      | none =>
        rw [hi1] at hins
        simp at hins
      | some p =>
        obtain ⟨r2, old2⟩ := p
        rw [hi1] at hins
        dsimp only at hins
        cases hb : balance_node (update (.node k v h m ht l r2)) with
        | none =>
          rw [hb] at hins
          simp at hins
        | some t3 =>
          rw [hb] at hins
          simp only [Option.some.injEq, Prod.mk.injEq] at hins
          obtain ⟨rfl, rfl⟩ := hins
          obtain ⟨hpairs, hbst, hhgt, hhash, hmerkle⟩ := balance_update_props k v h m ht l r2 _ hb
          obtain ⟨ih1, ih2, ih3, ih4, ih5, ih6, ih7⟩ := ihr r2 old2 hi1
          have hklt : ltb k key = true := by
            rw [ltb_iff]
            exact hc
          have hkne : key ≠ k := fun hh => ltb_ne hklt hh.symm
          refine ⟨?_, ?_, ?_, ?_, ?_, ?_, ?_⟩
          · rw [hpairs]
            simp [ih1]
          · intro q w hq
            rw [hpairs]
            simp [List.mem_append, ih2 q w hq]
          · intro hfresh w
            simp only [keysList_node, List.mem_append, List.mem_cons] at hfresh
            push_neg at hfresh
            obtain ⟨hf1, hf2, hf3⟩ := hfresh
            rw [hpairs]
            simp only [List.mem_append, List.mem_cons]
            constructor
            · rintro (hm | hm | hm)
              · exact absurd (key_mem_of_pair_mem hm) hf1
              · exact absurd (congrArg Prod.fst hm) (by simpa using hf2)
              · exact (ih3 hf3 w).mp hm
            · intro hw
              exact Or.inr (Or.inr ((ih3 hf3 w).mpr hw))
          · intro lo hi hb0 hlo hhi
            simp only [bstBnd_node, Bool.and_eq_true] at hb0
            obtain ⟨⟨⟨hb1, hb2⟩, hb3⟩, hb4⟩ := hb0
            exact hbst lo hi hb1 hb2 hb3 (ih4 (some k) hi hb4 hklt hhi)
          · intro hh0
            simp only [hgtOk_node, Bool.and_eq_true] at hh0
            obtain ⟨⟨_, hh1⟩, hh2⟩ := hh0
            exact hhgt hh1 (ih5 hh2)
          · intro hh0
            simp only [hashOk_node, Bool.and_eq_true, beq_iff_eq] at hh0
            obtain ⟨⟨hh1, hh2⟩, hh3⟩ := hh0
            exact hhash hh2 (ih6 hh3) hh1
          · intro hfresh hm0
            simp only [keysList_node, List.mem_append, List.mem_cons] at hfresh
            push_neg at hfresh
            simp only [merkleOk_node, Bool.and_eq_true] at hm0
            obtain ⟨⟨_, hm1⟩, hm2⟩ := hm0
            exact hmerkle hm1 (ih7 hfresh.2.2 hm2)
    | eq =>
      rw [hc] at hins
      dsimp only at hins
      simp only [Option.some.injEq, Prod.mk.injEq] at hins
      obtain ⟨rfl, rfl⟩ := hins
      have hkeq : k = key := (cmpBytes_eq_iff k key).mp hc
      subst hkeq
      refine ⟨by simp, ?_, ?_, ?_, ?_, ?_, ?_⟩
      · intro q w hq
        simp [hq]
      · intro hfresh w
        exfalso
        apply hfresh
        simp
      · intro lo hi hb0 hlo hhi
        simp only [bstBnd_node, Bool.and_eq_true] at hb0 ⊢
        exact hb0
      · intro hh0
        simp only [hgtOk_node, Bool.and_eq_true] at hh0 ⊢
        exact hh0
      · intro hh0
        simp only [hashOk_node, Bool.and_eq_true, beq_iff_eq] at hh0 ⊢
        exact ⟨⟨trivial, hh0.1.2⟩, hh0.2⟩
      · intro hfresh _
        exfalso
        apply hfresh
        simp

theorem insert_some (key value : List Nat) :
    ∀ t : NodeRef, hgtOk t = true →
      ∃ t2 old, insert_recursive t key value = some (t2, old) := by
  intro t
  induction t with
  | nil =>
    intro _
    exact ⟨_, _, rfl⟩
  | node k v h m ht l r ihl ihr =>
    intro hh
    simp only [hgtOk_node, Bool.and_eq_true] at hh
    obtain ⟨⟨_, hhl⟩, hhr⟩ := hh
    simp only [insert_recursive]
    cases hc : cmpBytes k key with
    | gt =>
      dsimp only
      obtain ⟨l2, old2, hi1⟩ := ihl hhl
      rw [hi1]
      dsimp only
      have hl2 : hgtOk l2 = true := (insert_props key value l l2 old2 hi1).2.2.2.2.1 hhl
      obtain ⟨t3, hb⟩ := balance_update_some k v h m ht l2 r hl2 hhr
      rw [hb]
      exact ⟨t3, old2, rfl⟩
    | lt =>
      dsimp only
      obtain ⟨r2, old2, hi1⟩ := ihr hhr
      rw [hi1]
      dsimp only
      have hr2 : hgtOk r2 = true := (insert_props key value r r2 old2 hi1).2.2.2.2.1 hhr
      obtain ⟨t3, hb⟩ := balance_update_some k v h m ht l r2 hhl hr2
      rw [hb]
      exact ⟨t3, old2, rfl⟩
    | eq =>
      dsimp only
      exact ⟨_, _, rfl⟩

/-! ## Search correctness under the BST invariant -/

theorem mem_bounds :
    ∀ (t : NodeRef) (lo hi : Option (List Nat)) (q w : List Nat),
      bstBnd lo hi t = true → (q, w) ∈ pairsList t →
      okLo lo q = true ∧ okHi hi q = true := by
  intro t
  induction t with
  | nil =>
    intro lo hi q w _ hm
    simp [pairsList] at hm
  | node k v h m ht l r ihl ihr =>
    intro lo hi q w hb hm
    simp only [bstBnd_node, Bool.and_eq_true] at hb
    obtain ⟨⟨⟨h1, h2⟩, h3⟩, h4⟩ := hb
    simp only [pairsList_node, List.mem_append, List.mem_cons] at hm
    rcases hm with hm | hm | hm
    · obtain ⟨o1, o2⟩ := ihl lo (some k) q w h3 hm
      exact ⟨o1, okHi_trans (by simpa [okHi] using o2) h2⟩
    · obtain ⟨h5, h6⟩ := Prod.ext_iff.mp hm
      subst h5
      exact ⟨h1, h2⟩
    · obtain ⟨o1, o2⟩ := ihr (some k) hi q w h4 hm
      exact ⟨okLo_trans h1 (by simpa [okLo] using o1), o2⟩

theorem get_of_mem :
    ∀ (t : NodeRef) (lo hi : Option (List Nat)) (q w : List Nat),
      bstBnd lo hi t = true → (q, w) ∈ pairsList t → get t q = some w := by
  intro t
  induction t with
  | nil =>
    intro lo hi q w _ hm
    simp [pairsList] at hm
  | node k v h m ht l r ihl ihr =>
    intro lo hi q w hb hm
    simp only [bstBnd_node, Bool.and_eq_true] at hb
    obtain ⟨⟨⟨h1, h2⟩, h3⟩, h4⟩ := hb
    simp only [pairsList_node, List.mem_append, List.mem_cons] at hm
    rcases hm with hm | hm | hm
    · have o2 : ltb q k = true := by
        simpa [okHi] using (mem_bounds l lo (some k) q w h3 hm).2
      have hcmp : cmpBytes k q = .gt := (cmpBytes_gt_iff k q).mpr (ltb_iff q k |>.mp o2)
      simp only [get, hcmp]
      exact ihl lo (some k) q w h3 hm
    · obtain ⟨h5, h6⟩ := Prod.ext_iff.mp hm
      subst h5
      subst h6
      simp [get, cmpBytes_self]
    · have o1 : ltb k q = true := by
        simpa [okLo] using (mem_bounds r (some k) hi q w h4 hm).1
      have hcmp : cmpBytes k q = .lt := (ltb_iff k q).mp o1
      simp only [get, hcmp]
      exact ihr (some k) hi q w h4 hm

theorem mem_of_get :
    ∀ (t : NodeRef) (q w : List Nat), get t q = some w → (q, w) ∈ pairsList t := by
  intro t
  induction t with
  | nil =>
    intro q w hg
    simp [get] at hg
  | node k v h m ht l r ihl ihr =>
    intro q w hg
    simp only [get] at hg
    cases hc : cmpBytes k q with
    | gt =>
      rw [hc] at hg
      dsimp only at hg
      simp only [pairsList_node, List.mem_append, List.mem_cons]
      exact Or.inl (ihl q w hg)
    | lt =>
      rw [hc] at hg
      dsimp only at hg
      simp only [pairsList_node, List.mem_append, List.mem_cons]
      exact Or.inr (Or.inr (ihr q w hg))
    | eq =>
      rw [hc] at hg
      dsimp only at hg
      injection hg with hw
      have hk : k = q := (cmpBytes_eq_iff k q).mp hc
      subst hk
      subst hw
      simp

theorem mem_keys_iff (t : NodeRef) (q : List Nat) :
    q ∈ keysList t ↔ ∃ w, (q, w) ∈ pairsList t := by
  constructor
  · intro hq
    rw [keysList, List.mem_map] at hq
    obtain ⟨⟨a, b⟩, hm, he⟩ := hq
    cases he
    exact ⟨b, hm⟩
  · rintro ⟨w, hm⟩
    rw [keysList, List.mem_map]
    exact ⟨(q, w), hm, rfl⟩

/-! ## Proof extraction and replay -/

theorem flatten_merkle_list (t : NodeRef) : (merkle_list t).flatten = merkle_or_empty t := by
  cases t <;> simp [merkle_list, merkle_or_empty]

theorem calc_append_one (p : Proof) (s : PathNode) :
    calc_exsistence_root { p with path := p.path ++ [s] } =
      hash_array [s.prefixBytes, calc_exsistence_root p, s.suffixBytes] := by
  simp [calc_exsistence_root, List.foldl_append]

theorem get_proof_of_get :
    ∀ (t : NodeRef) (q w : List Nat), get t q = some w →
      ∃ p, get_proof_recursive q t = some p ∧ p.key = q ∧ p.value = w := by
  intro t
  induction t with
  | nil =>
    intro q w hg
    simp [get] at hg
  | node k v h m ht l r ihl ihr =>
    intro q w hg
    simp only [get] at hg
    cases hc : cmpBytes k q with
    | gt =>
      rw [hc] at hg
      dsimp only at hg
      obtain ⟨p0, hp0, hpk, hpv⟩ := ihl q w hg
      refine ⟨{ p0 with path := p0.path ++ [⟨[], h ++ merkle_or_empty r⟩] }, ?_, hpk, hpv⟩
      simp only [get_proof_recursive, hc, hp0]
    | lt =>
      rw [hc] at hg
      dsimp only at hg
      obtain ⟨p0, hp0, hpk, hpv⟩ := ihr q w hg
      refine ⟨{ p0 with path := p0.path ++ [⟨merkle_or_empty l ++ h, []⟩] }, ?_, hpk, hpv⟩
      simp only [get_proof_recursive, hc, hp0]
    | eq =>
      rw [hc] at hg
      dsimp only at hg
      injection hg with hw
      have hk : k = q := (cmpBytes_eq_iff k q).mp hc
      refine ⟨⟨k, v, [⟨merkle_or_empty l, merkle_or_empty r⟩]⟩, ?_, hk, hw⟩
      simp only [get_proof_recursive, hc]

theorem calc_root_of_proof :
    ∀ (t : NodeRef) (q : List Nat) (p : Proof),
      hashOk t = true → merkleOk t = true →
      get_proof_recursive q t = some p →
      calc_exsistence_root p = merkle_or_empty t := by
  intro t
  induction t with
  | nil =>
    intro q p _ _ hp
    simp [get_proof_recursive] at hp
  | node k v h m ht l r ihl ihr =>
    intro q p hh hm hp
    simp only [hashOk_node, Bool.and_eq_true, beq_iff_eq] at hh
    obtain ⟨⟨hh1, hh2⟩, hh3⟩ := hh
    simp only [merkleOk_node, Bool.and_eq_true, beq_iff_eq] at hm
    obtain ⟨⟨hm1, hm2⟩, hm3⟩ := hm
    simp only [get_proof_recursive] at hp
    cases hc : cmpBytes k q with
    | gt =>
      rw [hc] at hp
      dsimp only at hp
      cases hp0 : get_proof_recursive q l with
      | none =>
        rw [hp0] at hp
        simp at hp
      | some p0 =>
        rw [hp0] at hp
        dsimp only at hp
        injection hp with hp2
        subst hp2
        rw [calc_append_one]
        rw [ihl q p0 hh2 hm2 hp0]
        rw [hm1, hash_array_eq_join, hash_array_eq_join]
        simp [merkle_or_empty, flatten_merkle_list, List.append_assoc]
    | lt =>
      rw [hc] at hp
      dsimp only at hp
      cases hp0 : get_proof_recursive q r with
      | none =>
        rw [hp0] at hp
        simp at hp
      | some p0 =>
        rw [hp0] at hp
        dsimp only at hp
        injection hp with hp2
        subst hp2
        rw [calc_append_one]
        rw [ihr q p0 hh3 hm3 hp0]
        rw [hm1, hash_array_eq_join, hash_array_eq_join]
        simp [merkle_or_empty, flatten_merkle_list, List.append_assoc]
    | eq =>
      rw [hc] at hp
      dsimp only at hp
      injection hp with hp2
      subst hp2
      show hash_array [merkle_or_empty l, hash_array [k, v], merkle_or_empty r] = m
      rw [hm1, ← hh1, hash_array_eq_join, hash_array_eq_join]
      simp [flatten_merkle_list, List.append_assoc]

/-! ## Invariants of built trees -/

theorem build_invariants :
    ∀ (ps : List (List Nat × List Nat)) (t0 t : NodeRef),
      hgtOk t0 = true → hashOk t0 = true → merkleOk t0 = true → bstBnd none none t0 = true →
      (ps.map Prod.fst).Nodup → (∀ q ∈ ps.map Prod.fst, q ∉ keysList t0) →
      build_go t0 ps = some t →
      hgtOk t = true ∧ hashOk t = true ∧ merkleOk t = true ∧ bstBnd none none t = true ∧
        (∀ q w : List Nat, (q, w) ∈ pairsList t ↔ (q, w) ∈ pairsList t0 ∨ (q, w) ∈ ps) := by
  intro ps
  induction ps with
  | nil =>
    intro t0 t h1 h2 h3 h4 _ _ hb
    simp only [build_go, Option.some.injEq] at hb
    subst hb
    exact ⟨h1, h2, h3, h4, by simp⟩
  | cons p rest ih =>
    obtain ⟨k, v⟩ := p
    intro t0 t h1 h2 h3 h4 hnodup hfresh hb
    simp only [build_go] at hb
    cases hi : insert_recursive t0 k v with
    | none =>
      rw [hi] at hb
      simp at hb
    | some q =>
      obtain ⟨t1, old⟩ := q
      rw [hi] at hb
      dsimp only at hb
      obtain ⟨ip1, ip2, ip3, ip4, ip5, ip6, ip7⟩ := insert_props k v t0 t1 old hi
      have hfresh0 : k ∉ keysList t0 := by
        apply hfresh
        simp
      have hpairs1 : ∀ q w : List Nat,
          (q, w) ∈ pairsList t1 ↔ (q, w) ∈ pairsList t0 ∨ (q, w) = (k, v) := by
        intro q w
        by_cases hq : q = k
        · subst hq
          rw [ip3 hfresh0 w]
          constructor
          · intro hw
            subst hw
            exact Or.inr rfl
          · rintro (hm | hm)
            · exact absurd (key_mem_of_pair_mem hm) hfresh0
            · injection hm
        · rw [ip2 q w hq]
          constructor
          · exact Or.inl
          · rintro (hm | hm)
            · exact hm
            · injection hm with hq1 hw1
              exact absurd hq1 hq
      simp only [List.map_cons, List.nodup_cons, List.mem_map] at hnodup
      obtain ⟨hn1, hn2⟩ := hnodup
      have hfresh1 : ∀ q ∈ rest.map Prod.fst, q ∉ keysList t1 := by
        intro q hq hmem
        obtain ⟨w, hw⟩ := (mem_keys_iff t1 q).mp hmem
        rcases (hpairs1 q w).mp hw with hm | hm
        · exact hfresh q (by simp [hq]) (key_mem_of_pair_mem hm)
        · apply hn1
          injection hm with hq1 hw1
          simp only [List.mem_map] at hq
          obtain ⟨pp, hpp, hppf⟩ := hq
          exact ⟨pp, hpp, by rw [hppf, hq1]⟩
      obtain ⟨c1, c2, c3, c4, c5⟩ :=
        ih t1 t (ip5 h1) (ip6 h2) (ip7 hfresh0 h3) (ip4 none none h4 rfl rfl) hn2 hfresh1 hb
      refine ⟨c1, c2, c3, c4, ?_⟩
      intro q w
      rw [c5 q w, hpairs1 q w]
      simp only [List.mem_cons]
      tauto

/-- BST and height consistency of built trees, for arbitrary insert
sequences (duplicate keys allowed). -/
theorem build_go_bst_hgt :
    ∀ (ps : List (List Nat × List Nat)) (t0 t : NodeRef),
      hgtOk t0 = true → bstBnd none none t0 = true →
      build_go t0 ps = some t →
      hgtOk t = true ∧ bstBnd none none t = true := by
  intro ps
  induction ps with
  | nil =>
    intro t0 t h1 h2 hb
    simp only [build_go, Option.some.injEq] at hb
    subst hb
    exact ⟨h1, h2⟩
  | cons p rest ih =>
    obtain ⟨k, v⟩ := p
    intro t0 t h1 h2 hb
    simp only [build_go] at hb
    cases hi : insert_recursive t0 k v with
    | none =>
      rw [hi] at hb
      simp at hb
    | some q =>
      obtain ⟨t1, old⟩ := q
      rw [hi] at hb
      dsimp only at hb
      obtain ⟨_, _, _, ip4, ip5, _, _⟩ := insert_props k v t0 t1 old hi
      exact ih t1 t (ip5 h1) (ip4 none none h2 rfl rfl) hb

/-- The left child of a node (`nil` on the empty tree). -/
def leftChild : NodeRef → NodeRef
  | .nil => .nil
  | .node _ _ _ _ _ l _ => l

/-- The right child of a node (`nil` on the empty tree). -/
def rightChild : NodeRef → NodeRef
  | .nil => .nil
  | .node _ _ _ _ _ _ r => r

/-- The stored height of an optional node with an absent node counted as 0. -/
def hZero : NodeRef → Int
  | .nil => 0
  | .node _ _ _ _ ht _ _ => (ht : Int)

/-! ## Claims -/

/-- C1: for every tree built from `Tree::new()` by `insert` calls with
pairwise-distinct keys, and every key `k` present with stored value `v`,
`get_proof k` returns a proof that `verify_existence k v` accepts: replaying
`H(k ‖ v)` through the proof's (prefix, suffix) steps, leaf-adjacent first,
reproduces `root_hash`. -/
theorem proof_soundness_of_build
    (ps : List (List Nat × List Nat)) (t : NodeRef) (k v : List Nat)
    (hnodup : (ps.map Prod.fst).Nodup)
    (hbuild : buildTree ps = some t)
    (hget : get t k = some v) :
    ∃ p, get_proof t k = some p ∧ verify_existence t k v p = some (Except.ok ()) := by
  obtain ⟨hhgt, hhash, hmerkle, hbst, hpairs⟩ :=
    build_invariants ps .nil t rfl rfl rfl rfl hnodup (by simp [keysList, pairsList]) hbuild
  obtain ⟨p, hp, hpk, hpv⟩ := get_proof_of_get t k v hget
  refine ⟨p, hp, ?_⟩
  have hcalc := calc_root_of_proof t k p hhash hmerkle hp
  cases t with
  | nil => simp [get] at hget
  | node tk tv th tm tht tl tr =>
    have hcalc2 : calc_exsistence_root p = tm := by
      simpa [merkle_or_empty] using hcalc
    simp [verify_existence, root_hash, hpk, hpv, hcalc2]

/-- C1 witness. -/
theorem proof_soundness_of_build_witness :
    ∃ p, get_proof ((buildTree [([1], [10]), ([2], [20])]).getD .nil) [2] = some p ∧
      verify_existence ((buildTree [([1], [10]), ([2], [20])]).getD .nil) [2] [20] p =
        some (Except.ok ()) :=
  proof_soundness_of_build [([1], [10]), ([2], [20])] _ [2] [20]
    (by decide) rfl rfl

/-- C2 counterexample: inserting the same two pairs in the two possible
orders yields different root hashes. -/
theorem root_hash_order_cex :
    ¬ ((buildTree [([0], [0]), ([1], [1])]).bind root_hash =
        (buildTree [([1], [1]), ([0], [0])]).bind root_hash) := by
  decide

/-- C2 amended: inserting the same set of `(key, value)` pairs (distinct
keys) in any two orders yields trees with identical lookup behaviour — every
`get` agrees — though the root hashes may differ. -/
theorem build_perm_get_agree
    (ps1 ps2 : List (List Nat × List Nat)) (t1 t2 : NodeRef)
    (hperm : ps1.Perm ps2) (hnodup : (ps1.map Prod.fst).Nodup)
    (h1 : buildTree ps1 = some t1) (h2 : buildTree ps2 = some t2) :
    ∀ q, get t1 q = get t2 q := by
  have hnodup2 : (ps2.map Prod.fst).Nodup := ((hperm.map Prod.fst).nodup_iff).mp hnodup
  obtain ⟨_, _, _, hbst1, hp1⟩ :=
    build_invariants ps1 .nil t1 rfl rfl rfl rfl hnodup (by simp [keysList, pairsList]) h1
  obtain ⟨_, _, _, hbst2, hp2⟩ :=
    build_invariants ps2 .nil t2 rfl rfl rfl rfl hnodup2 (by simp [keysList, pairsList]) h2
  have hmem : ∀ q w : List Nat, (q, w) ∈ pairsList t1 ↔ (q, w) ∈ pairsList t2 := by
    intro q w
    rw [hp1 q w, hp2 q w]
    simp only [pairsList, List.not_mem_nil, false_or]
    exact hperm.mem_iff
  intro q
  cases hg : get t1 q with
  | some w =>
    rw [get_of_mem t2 none none q w hbst2 ((hmem q w).mp (mem_of_get t1 q w hg))]
  | none =>
    cases hg2 : get t2 q with
    | none => rfl
    | some w =>
      rw [← hg]
      rw [get_of_mem t1 none none q w hbst1 ((hmem q w).mpr (mem_of_get t2 q w hg2))]

/-- C2 witness. -/
theorem build_perm_get_agree_witness :
    get ((buildTree [([0], [0]), ([1], [1])]).getD .nil) [0] =
      get ((buildTree [([1], [1]), ([0], [0])]).getD .nil) [0] :=
  build_perm_get_agree [([0], [0]), ([1], [1])] [([1], [1]), ([0], [0])] _ _
    (by decide) (by decide) rfl rfl [0]

/-- C4 counterexample: the tree built by inserting keys 3, 2, 1 satisfies the
BST and height-consistency invariants but violates the AVL balance invariant
(the root's children have heights 1 and −1). -/
theorem avl_invariant_cex :
    (buildTree [([3], [3]), ([2], [2]), ([1], [1])]).map
      (fun t => (bstBnd none none t, hgtOk t, avlOk t)) = some (true, true, false) := by
  decide

/-- C4 amended: every tree built by a sequence of `insert` calls satisfies
the BST invariant and the height-consistency invariant (`n.height` equals
`1 + max` of the child heights with an absent child counted as −1, so leaves
have height 0); the AVL balance invariant `|height(left) − height(right)| ≤ 1`
does not hold in general. -/
theorem build_bst_and_heights (ps : List (List Nat × List Nat)) (t : NodeRef)
    (hbuild : buildTree ps = some t) :
    bstBnd none none t = true ∧ hgtOk t = true := by
  obtain ⟨a, b⟩ := build_go_bst_hgt ps .nil t rfl rfl hbuild
  exact ⟨b, a⟩

/-- C4 witness. -/
theorem build_bst_and_heights_witness :
    bstBnd none none ((buildTree [([1], [1]), ([2], [2])]).getD .nil) = true ∧
      hgtOk ((buildTree [([1], [1]), ([2], [2])]).getD .nil) = true :=
  build_bst_and_heights [([1], [1]), ([2], [2])] _ rfl

/-- C3: inserting `(k, v1)` then `(k, v2)` on a fresh tree: the second call
returns `Some v1` and `get k` returns `v2` as the claim states, but
`root_hash` does NOT change — the overwrite refreshes the node's content hash
without recomputing its merkle hash, so the stale subtree hash propagates and
the root hash is identical before and after the second insert. This
contradicts the claim's final conjunct and exhibits the latent bug the spec
itself points out. -/
theorem overwrite_keeps_root_hash :
    ((insert_recursive .nil [107] [118, 49]).bind (fun r1 =>
      (insert_recursive r1.1 [107] [118, 50]).map (fun r2 =>
        (r2.2, get r2.1 [107], root_hash r2.1 == root_hash r1.1)))) =
      some (some [118, 49], some [118, 50], true) := by
  decide

/-- C5 counterexample: on the tree built by inserting keys 1 then 2, the root
has no left child and a right child of stored height 0, yet `balance_factor`
returns 0 — not `−(0 + 1) = −1` as the claim states. -/
theorem balance_factor_cex :
    (buildTree [([1], [1]), ([2], [2])]).map
      (fun t => (height_opt (leftChild t), height_opt (rightChild t), balance_factor t)) =
      some (none, some 0, 0) ∧ (0 : Int) ≠ -(0 + 1) := by
  constructor
  · decide
  · decide

/-- C5 amended: `balance_factor` computes `height(left) − height(right)` with
an absent child treated as height 0 (not −1): it returns 0 when both children
are absent, `−h` when only the right child is present with height `h`, `h`
when only the left child is present, and `h_l − h_r` when both are present. -/
theorem balance_factor_amended (k v h m : List Nat) (ht : Nat) (l r : NodeRef) :
    balance_factor (.node k v h m ht l r) = hZero l - hZero r := by
  cases l <;> cases r <;> simp [balance_factor, height_opt, hZero]

/-- C6: `hash_array` equals the SHA-256 of the concatenation of its
arguments — the streaming-update contract — and in particular
`hash_array [b"h", b"e", b"l", b"l", b"o"]` is SHA-256 of `"hello"`,
`2cf24dba5fb0a30e26e83b2ac5b9e29e1b161e5c1fa7425e73043362938b9824`. -/
theorem hash_array_streaming :
    (∀ l : List (List Nat), hash_array l = hash_value l.flatten) ∧
    hash_array [[104], [101], [108], [108], [111]] = hash_value [104, 101, 108, 108, 111] ∧
    hash_value [104, 101, 108, 108, 111] =
      [44, 242, 77, 186, 95, 176, 163, 14,
       38, 232, 59, 42, 197, 185, 226, 158,
       27, 22, 30, 92, 31, 167, 66, 94,
       115, 4, 51, 98, 147, 139, 152, 36] :=
  ⟨hash_array_eq_join, by decide, by decide⟩

/-- C7: on a tree satisfying the BST, AVL, and height-consistency invariants,
no `insert` call reaches a fatal branch: whenever rebalancing fires, the
required children are present, so no `expect` panics and the call returns. -/
theorem insert_never_panics (t : NodeRef) (k v : List Nat)
    (_hbst : bstBnd none none t = true) (_havl : avlOk t = true) (hhgt : hgtOk t = true) :
    ∃ t2 old, insert_recursive t k v = some (t2, old) :=
  insert_some k v t hhgt

/-- C7 witness. -/
theorem insert_never_panics_witness :
    ∃ t2 old,
      insert_recursive ((buildTree [([1], [1])]).getD .nil) [2] [2] = some (t2, old) :=
  insert_never_panics ((buildTree [([1], [1])]).getD .nil) [2] [2]
    (by decide) (by decide) (by decide)

/-- C8 counterexample: on a fresh tree, if the proof's stored key differs from
the queried key, `verify_existence` hits the leading `assert!` (a panic,
modelled as `none`) instead of returning `RootHashNotFound`, so the claim does
not hold for every choice of proof. -/
theorem verify_empty_assert_cex :
    verify_existence .nil [0] [0] ⟨[1], [0], []⟩ ≠
      some (Except.error AvlTreeError.RootHashNotFound) := by
  decide

/-- C8 amended: on a fresh tree, for every key, value and proof whose stored
key and value match the arguments (so the leading assertions pass),
`verify_existence` returns the `RootHashNotFound` error. -/
theorem verify_empty_root_not_found (k v : List Nat) (p : Proof)
    (hk : p.key = k) (hv : p.value = v) :
    verify_existence .nil k v p = some (Except.error AvlTreeError.RootHashNotFound) := by
  simp [verify_existence, root_hash, hk, hv]

/-- C8 witness. -/
theorem verify_empty_root_not_found_witness :
    verify_existence .nil [0] [0] ⟨[0], [0], []⟩ =
      some (Except.error AvlTreeError.RootHashNotFound) :=
  verify_empty_root_not_found [0] [0] ⟨[0], [0], []⟩ rfl rfl

/-- C9 counterexample: inserting the empty key is not a fatal error — the call
completes as a normal insertion (it does not abort), installs an empty-key
node whose value `get` returns, and reports no previous value. -/
theorem insert_empty_key_cex :
    (insert_recursive .nil [] [42]).map (fun r => (get r.1 [], r.2)) =
        some (some [42], none) ∧
      insert_recursive .nil [] [42] ≠ none := by
  constructor
  · decide
  · decide

/-- C9 amended: `insert` performs no key validation: inserting the empty byte
string as a key completes as a normal insertion, installing an empty-key node
(readable back with `get`) and returning no previous value. -/
theorem insert_empty_key_completes (v : List Nat) :
    insert_recursive .nil [] v = some (as_node_ref [] v, none) ∧
      get (as_node_ref [] v) [] = some v := by
  constructor
  · rfl
  · simp [as_node_ref, get, cmpBytes]

/-- C10: on a tree satisfying the BST invariant, immediately after
`insert k v` (when it returns), `get k` returns `Some v` — the freshly
inserted or overwritten value is always readable back. -/
theorem get_after_insert (t t2 : NodeRef) (k v : List Nat) (old : Option (List Nat))
    (hbst : bstBnd none none t = true)
    (hins : insert_recursive t k v = some (t2, old)) :
    get t2 k = some v := by
  obtain ⟨ip1, _, _, ip4, _⟩ := insert_props k v t t2 old hins
  exact get_of_mem t2 none none k v (ip4 none none hbst rfl rfl) ip1

/-- C10 witness. -/
theorem get_after_insert_witness :
    get ((insert_recursive ((buildTree [([1], [1])]).getD .nil) [2] [5]).getD
      (.nil, none)).1 [2] = some [5] :=
  get_after_insert ((buildTree [([1], [1])]).getD .nil) _ [2] [5]
    ((insert_recursive ((buildTree [([1], [1])]).getD .nil) [2] [5]).getD (.nil, none)).2
    (by decide) rfl

end Iavl
